import Mathlib

/-!
Shallow embedding of the vector-search engine
(`src/wasm-modules/vector-search/src/lib.rs`).

Modelling conventions:
* An `f64`/`f32` value is modelled as `Option ℝ`: `some x` is a finite float
  under exact real arithmetic, `none` stands for NaN (any non-finite result is
  collapsed to `none`; the engine never produces one from finite data because
  every division is guarded by a zero test).
* A Rust panic is modelled as `Except.error` carrying the kind of panic.
* `Vec<f64>` slices become `List F`; the in-place `normalize_vector` returns
  the updated buffer.
* Rust's stable `sort_by` is modelled by `List.mergeSort`: both are stable
  sorts, and a stable sort's output is uniquely determined by the comparator
  and the input order.
-/

namespace VectorSearchModel

/-- Model of an `f64`/`f32` value: a finite real, or `none` for NaN. -/
abbrev F := Option ℝ

/-- Float addition: NaN propagates. -/
def fadd : F → F → F
  | some x, some y => some (x + y)
  | _, _ => none

/-- Float multiplication: NaN propagates. -/
def fmul : F → F → F
  | some x, some y => some (x * y)
  | _, _ => none

/-- Float subtraction: NaN propagates. -/
def fsub : F → F → F
  | some x, some y => some (x - y)
  | _, _ => none

/-- Float division: NaN propagates; a division by zero does not produce a
finite real and is collapsed to `none` (the engine guards every division by a
zero test, so this branch is never taken on finite data). -/
noncomputable def fdiv : F → F → F
  | some x, some y => if y = 0 then none else some (x / y)
  | _, _ => none

/-- Float square root: NaN propagates; the square root of a negative float is
NaN. -/
noncomputable def fsqrt : F → F
  | some x => if x < 0 then none else some (Real.sqrt x)
  | none => none

/-- Kind of Rust panic observable from the engine. -/
inductive Panic : Type
  | dimensionMismatch
  | indexOutOfBounds
  | unwrapFailed
deriving DecidableEq

/-- Model of `VectorSearch::cosine_similarity` (lib.rs lines 30-51).
The `dimensions` field of the `VectorSearch` struct is passed explicitly. -/
noncomputable def cosine_similarity (dimensions : ℕ) (vec1 vec2 : List F) :
    Except Panic F :=
  if vec1.length ≠ vec2.length ∨ vec1.length ≠ dimensions then
    .error .dimensionMismatch
  else
    let d := (List.zipWith fmul vec1 vec2).foldl fadd (some 0)
    let norm1 := (vec1.map fun x => fmul x x).foldl fadd (some 0)
    let norm2 := (vec2.map fun x => fmul x x).foldl fadd (some 0)
    let magnitude := fmul (fsqrt norm1) (fsqrt norm2)
    if magnitude = some 0 then .ok (some 0) else .ok (fdiv d magnitude)

/-- Model of `VectorSearch::euclidean_distance` (lib.rs lines 101-113). -/
noncomputable def euclidean_distance (dimensions : ℕ) (vec1 vec2 : List F) :
    Except Panic F :=
  if vec1.length ≠ vec2.length ∨ vec1.length ≠ dimensions then
    .error .dimensionMismatch
  else
    let s := (List.zipWith (fun a b => fmul (fsub a b) (fsub a b)) vec1 vec2).foldl
      fadd (some 0)
    .ok (fsqrt s)

/-- Model of `VectorSearch::dot_product` (lib.rs lines 117-128). -/
noncomputable def dot_product (dimensions : ℕ) (vec1 vec2 : List F) :
    Except Panic F :=
  if vec1.length ≠ vec2.length ∨ vec1.length ≠ dimensions then
    .error .dimensionMismatch
  else
    .ok ((List.zipWith fmul vec1 vec2).foldl fadd (some 0))

/-- Model of `VectorSearch::normalize_vector` (lib.rs lines 132-148).
The mutated buffer is returned.  The guard is `magnitude > 0.0`, which is
false both for a zero magnitude and for a NaN magnitude. -/
noncomputable def normalize_vector (dimensions : ℕ) (vec : List F) :
    Except Panic (List F) :=
  if vec.length ≠ dimensions then
    .error .dimensionMismatch
  else
    match fsqrt ((vec.map fun x => fmul x x).foldl fadd (some 0)) with
    | some m => if 0 < m then .ok (vec.map fun x => fdiv x (some m)) else .ok vec
    | none => .ok vec

/-- Model of the internal helper `VectorSearch::cosine_similarity_f32`
(lib.rs lines 207-224).  It performs NO dimension check: it iterates over
`0..vec1.len()` indexing both slices, so a shorter `vec2` aborts with an
index-out-of-bounds panic, and a longer `vec2` is silently truncated to
`vec1`'s length. -/
noncomputable def cosine_similarity_f32 (vec1 vec2 : List F) : Except Panic F :=
  if vec2.length < vec1.length then
    .error .indexOutOfBounds
  else
    let d := (List.zipWith fmul vec1 vec2).foldl fadd (some 0)
    let norm1 := (vec1.map fun x => fmul x x).foldl fadd (some 0)
    let norm2 := ((vec2.take vec1.length).map fun x => fmul x x).foldl fadd (some 0)
    let magnitude := fmul (fsqrt norm1) (fsqrt norm2)
    if magnitude = some 0 then .ok (some 0) else .ok (fdiv d magnitude)

/-- Model of `VectorSearch::cosine_similarity_simd` (lib.rs lines 55-97).
The compile-time feature `simd` is passed as the Boolean `simd`.  With the
feature enabled the dimensions are validated and the accumulation runs over
`len / 4` lanes of four components followed by a scalar remainder loop; the
horizontal lane sum `(a * b).sum()` is modelled as a left fold of the four
products (all associations agree in exact real arithmetic).  Without the
feature the function delegates to the unchecked `cosine_similarity_f32`. -/
noncomputable def cosine_similarity_simd (simd : Bool) (dimensions : ℕ)
    (vec1 vec2 : List F) : Except Panic F :=
  if simd then
    if vec1.length ≠ vec2.length ∨ vec1.length ≠ dimensions then
      .error .dimensionMismatch
    else
      let chunks := vec1.length / 4
      let d0 := (List.range chunks).foldl (fun acc i =>
        fadd acc ((List.zipWith fmul ((vec1.drop (i * 4)).take 4)
          ((vec2.drop (i * 4)).take 4)).foldl fadd (some 0))) (some 0)
      let n10 := (List.range chunks).foldl (fun acc i =>
        fadd acc ((List.zipWith fmul ((vec1.drop (i * 4)).take 4)
          ((vec1.drop (i * 4)).take 4)).foldl fadd (some 0))) (some 0)
      let n20 := (List.range chunks).foldl (fun acc i =>
        fadd acc ((List.zipWith fmul ((vec2.drop (i * 4)).take 4)
          ((vec2.drop (i * 4)).take 4)).foldl fadd (some 0))) (some 0)
      let d := (List.zipWith fmul (vec1.drop (chunks * 4))
        (vec2.drop (chunks * 4))).foldl fadd d0
      let norm1 := ((vec1.drop (chunks * 4)).map fun x => fmul x x).foldl fadd n10
      let norm2 := ((vec2.drop (chunks * 4)).map fun x => fmul x x).foldl fadd n20
      let magnitude := fmul (fsqrt norm1) (fsqrt norm2)
      if magnitude = some 0 then .ok (some 0) else .ok (fdiv d magnitude)
  else
    cosine_similarity_f32 vec1 vec2

/-- Model of `VectorSearch::batch_cosine_similarity` (lib.rs lines 152-176).
Row `i` is the slice `vectors[i*dimensions .. (i+1)*dimensions]`. -/
noncomputable def batch_cosine_similarity (dimensions : ℕ)
    (query vectors : List F) (count : ℕ) : Except Panic (List F) :=
  if query.length ≠ dimensions then
    .error .dimensionMismatch
  else if vectors.length ≠ count * dimensions then
    .error .dimensionMismatch
  else
    (List.range count).mapM fun i =>
      cosine_similarity dimensions query ((vectors.drop (i * dimensions)).take dimensions)

/-- Model of the comparator `|a, b| b.1.partial_cmp(&a.1).unwrap()` used by
`find_top_k`: element `a` precedes element `b` exactly when `b`'s score is at
most `a`'s score (descending order, ties resolved by the stable sort).  The
catch-all branch is reached only when a NaN score is compared, in which case
the real comparator panics; that panic is modelled by the guard inside
`find_top_k`, so the branch value is irrelevant there. -/
noncomputable def ple (a b : ℕ × F) : Bool :=
  match a.2, b.2 with
  | some x, some y => decide (y ≤ x)
  | _, _ => true

/-- Model of `VectorSearch::find_top_k` (lib.rs lines 180-204).
`sort_by` with the unwrapping comparator panics as soon as a comparison
involves a NaN score.  A comparison sort invokes its comparator on every
element of a slice of length at least two (otherwise two distinct total
orders would be consistent with the observations), and every comparison
involving the NaN element returns `None`; with at most one element no
comparison is ever invoked.  Hence the sort panics exactly when the slice has
length at least two and contains a NaN score. -/
noncomputable def find_top_k (dimensions : ℕ) (query vectors : List F)
    (count k : ℕ) : Except Panic (List ℕ) := do
  let similarities ← batch_cosine_similarity dimensions query vectors count
  let indexed := similarities.enum
  if 2 ≤ indexed.length ∧ ∃ p ∈ indexed, p.2 = none then
    .error .unwrapFailed
  else
    .ok (((indexed.mergeSort ple).take k).map Prod.fst)

/-- Lift a list of finite reals to a list of floats (no NaN). -/
def toF (l : List ℝ) : List F := l.map some

/-- Real-level shadow of the accumulated squared norm `Σ vᵢ²`. -/
def sumSq (l : List ℝ) : ℝ := (l.map fun x => x * x).sum

/-- Real-level shadow of the float magnitude `‖v‖ = sqrt (Σ vᵢ²)`. -/
noncomputable def normR (l : List ℝ) : ℝ := Real.sqrt (sumSq l)

/-- Real-level shadow of the cosine-similarity score computed by
`cosine_similarity` on NaN-free inputs (proved in `cosine_similarity_toF`). -/
noncomputable def cosineR (a b : List ℝ) : ℝ :=
  if normR a * normR b = 0 then 0
  else (List.zipWith (· * ·) a b).sum / (normR a * normR b)

/-- Real-level shadow of the comparator `ple` on NaN-free scored pairs. -/
noncomputable def pleR (a b : ℕ × ℝ) : Bool := decide (b.2 ≤ a.2)

/-! ### Basic algebra of the float model -/

theorem fadd_assoc (a b c : F) : fadd (fadd a b) c = fadd a (fadd b c) := by
  cases a <;> cases b <;> cases c <;> simp [fadd, add_assoc]

theorem fadd_zero (a : F) : fadd a (some 0) = a := by
  cases a <;> simp [fadd]

theorem zero_fadd (a : F) : fadd (some 0) a = a := by
  cases a <;> simp [fadd]

theorem foldl_fadd_eq (s : List F) (a : F) :
    s.foldl fadd a = fadd a (s.foldl fadd (some 0)) := by
  induction s generalizing a with
  | nil => simp [fadd_zero]
  | cons x t ih =>
    simp only [List.foldl_cons]
    rw [ih (fadd a x), ih (fadd (some 0) x), zero_fadd, fadd_assoc]

theorem foldl_fadd_toF (l : List ℝ) (c : ℝ) :
    (l.map some).foldl fadd (some c) = some (c + l.sum) := by
  induction l generalizing c with
  | nil => simp [fadd]
  | cons x t ih =>
    simp only [List.map_cons, List.foldl_cons, fadd, List.sum_cons]
    rw [ih (c + x)]
    ring_nf

theorem zipWith_fmul_toF (a b : List ℝ) :
    List.zipWith fmul (toF a) (toF b) = toF (List.zipWith (· * ·) a b) := by
  simp [toF, List.zipWith_map, List.map_zipWith, fmul]

theorem map_sq_toF (a : List ℝ) :
    (toF a).map (fun x => fmul x x) = toF (a.map fun x => x * x) := by
  simp only [toF, List.map_map]
  exact List.map_congr_left fun x _ => rfl

theorem length_toF (a : List ℝ) : (toF a).length = a.length := by
  simp [toF]

theorem sumSq_nonneg (l : List ℝ) : 0 ≤ sumSq l := by
  refine List.sum_nonneg ?_
  intro x hx
  obtain ⟨y, _, rfl⟩ := List.mem_map.mp hx
  exact mul_self_nonneg y

theorem fsqrt_sumSq (l : List ℝ) :
    fsqrt (some (sumSq l)) = some (Real.sqrt (sumSq l)) := by
  simp [fsqrt, not_lt.mpr (sumSq_nonneg l)]

/-! ### Real-level reductions of the kernels on NaN-free inputs -/

theorem norm_foldl_toF (l : List ℝ) :
    ((toF l).map fun x => fmul x x).foldl fadd (some 0) = some (sumSq l) := by
  rw [map_sq_toF]
  unfold toF
  rw [foldl_fadd_toF]
  simp [sumSq]

theorem dot_foldl_toF (a b : List ℝ) :
    (List.zipWith fmul (toF a) (toF b)).foldl fadd (some 0) =
      some ((List.zipWith (· * ·) a b).sum) := by
  rw [zipWith_fmul_toF]
  unfold toF
  rw [foldl_fadd_toF]
  simp

/-- On NaN-free operands of the declared dimension, `cosine_similarity`
returns the real score `cosineR`. -/
theorem cosine_similarity_toF (dimensions : ℕ) (a b : List ℝ)
    (ha : a.length = dimensions) (hb : b.length = dimensions) :
    cosine_similarity dimensions (toF a) (toF b) = .ok (some (cosineR a b)) := by
  unfold cosine_similarity
  rw [if_neg (by simp [length_toF, ha, hb])]
  rw [dot_foldl_toF, norm_foldl_toF, norm_foldl_toF]
  simp only [fsqrt_sumSq, fmul]
  unfold cosineR normR
  by_cases hm : Real.sqrt (sumSq a) * Real.sqrt (sumSq b) = 0
  · rw [if_pos (by rw [hm]), if_pos hm]
  · rw [if_neg (by simpa using hm), if_neg hm]
    simp [fdiv, hm]

/-- On NaN-free operands of the declared dimension, `dot_product` returns the
sum of the componentwise products. -/
theorem dot_product_toF (dimensions : ℕ) (a b : List ℝ)
    (ha : a.length = dimensions) (hb : b.length = dimensions) :
    dot_product dimensions (toF a) (toF b) =
      .ok (some ((List.zipWith (· * ·) a b).sum)) := by
  unfold dot_product
  rw [if_neg (by simp [length_toF, ha, hb]), dot_foldl_toF]

theorem zipWith_sq_nonneg (a b : List ℝ) :
    ∀ x ∈ List.zipWith (fun p q => (p - q) * (p - q)) a b, 0 ≤ x := by
  induction a generalizing b with
  | nil => simp
  | cons p ta ih =>
    cases b with
    | nil => simp
    | cons q tb =>
      intro x hx
      rcases List.mem_cons.mp hx with h | h
      · exact h ▸ mul_self_nonneg _
      · exact ih tb x h

/-- On NaN-free operands of the declared dimension, `euclidean_distance`
returns the square root of the summed squared differences. -/
theorem euclidean_distance_toF (dimensions : ℕ) (a b : List ℝ)
    (ha : a.length = dimensions) (hb : b.length = dimensions) :
    euclidean_distance dimensions (toF a) (toF b) =
      .ok (some (Real.sqrt ((List.zipWith (fun x y => (x - y) * (x - y)) a b).sum))) := by
  unfold euclidean_distance
  rw [if_neg (by simp [length_toF, ha, hb])]
  have hz : List.zipWith (fun p q => fmul (fsub p q) (fsub p q)) (toF a) (toF b) =
      (List.zipWith (fun x y => (x - y) * (x - y)) a b).map some := by
    simp [toF, List.zipWith_map, List.map_zipWith, fsub, fmul]
  rw [hz, foldl_fadd_toF]
  simp only [zero_add, fsqrt]
  rw [if_neg (not_lt.mpr (List.sum_nonneg (zipWith_sq_nonneg a b)))]

/-- On NaN-free operands of equal length, the unchecked scalar helper
`cosine_similarity_f32` returns the real score `cosineR`. -/
theorem cosine_similarity_f32_toF (a b : List ℝ) (hab : a.length = b.length) :
    cosine_similarity_f32 (toF a) (toF b) = .ok (some (cosineR a b)) := by
  unfold cosine_similarity_f32
  rw [if_neg (by simp [length_toF, hab])]
  have ht : (toF b).take (toF a).length = toF b := by
    rw [length_toF, hab, toF, ← List.map_take, List.take_length]
  rw [ht, dot_foldl_toF, norm_foldl_toF, norm_foldl_toF]
  simp only [fsqrt_sumSq, fmul]
  unfold cosineR normR
  by_cases hm : Real.sqrt (sumSq a) * Real.sqrt (sumSq b) = 0
  · rw [if_pos (by rw [hm]), if_pos hm]
  · rw [if_neg (by simpa using hm), if_neg hm]
    simp [fdiv, hm]

/-! ### `mapM` over `Except` -/

theorem mapM_ok_of_forall {α β ε : Type} (l : List α) (f : α → Except ε β)
    (g : α → β) (h : ∀ a ∈ l, f a = .ok (g a)) : l.mapM f = .ok (l.map g) := by
  induction l with
  | nil => rfl
  | cons a t ih =>
    rw [List.mapM_cons, h a (by simp), ih fun x hx => h x (by simp [hx])]
    rfl

theorem mapM'_ok_forall₂ {α β ε : Type} (l : List α) (f : α → Except ε β)
    (out : List β) (h : l.mapM' f = .ok out) :
    List.Forall₂ (fun a b => f a = .ok b) l out := by
  induction l generalizing out with
  | nil =>
    simp only [List.mapM'_nil, pure, Except.pure, Except.ok.injEq] at h
    subst h
    exact List.Forall₂.nil
  | cons a t ih =>
    simp only [List.mapM'_cons, bind, Bind.bind] at h
    cases hfa : f a with
    | error e => rw [hfa] at h; simp [Except.bind] at h
    | ok b =>
      rw [hfa] at h
      cases hmt : t.mapM' f with
      | error e =>
        rw [hmt] at h
        simp [Except.bind] at h
      | ok tl =>
        rw [hmt] at h
        simp only [Except.bind, pure, Except.pure, Except.ok.injEq] at h
        subst h
        exact List.Forall₂.cons hfa (ih tl hmt)

theorem mapM_ok_forall₂ {α β ε : Type} (l : List α) (f : α → Except ε β)
    (out : List β) (h : l.mapM f = .ok out) :
    List.Forall₂ (fun a b => f a = .ok b) l out :=
  mapM'_ok_forall₂ l f out (by rw [List.mapM'_eq_mapM, h])

/-- Row `i` of the flattened set has length `dimensions` whenever the set's
flattened length is `count * dimensions` and `i < count`. -/
theorem row_length {γ : Type} {dimensions count : ℕ} (vs : List γ)
    (hvs : vs.length = count * dimensions) {i : ℕ} (hi : i < count) :
    ((vs.drop (i * dimensions)).take dimensions).length = dimensions := by
  rw [List.length_take, List.length_drop, hvs]
  have : (i + 1) * dimensions ≤ count * dimensions :=
    Nat.mul_le_mul_right _ hi
  rw [Nat.add_mul, one_mul] at this
  omega

/-- On NaN-free inputs of the declared shape, `batch_cosine_similarity`
returns the list of real scores of the rows, in row order. -/
theorem batch_cosine_similarity_toF (dimensions : ℕ) (q vs : List ℝ)
    (count : ℕ) (hq : q.length = dimensions)
    (hvs : vs.length = count * dimensions) :
    batch_cosine_similarity dimensions (toF q) (toF vs) count =
      .ok (toF ((List.range count).map fun i =>
        cosineR q ((vs.drop (i * dimensions)).take dimensions))) := by
  unfold batch_cosine_similarity
  rw [if_neg (by simp [length_toF, hq]), if_neg (by simp [length_toF, hvs])]
  rw [mapM_ok_of_forall _ _
    (fun i => some (cosineR q ((vs.drop (i * dimensions)).take dimensions)))]
  · simp [toF, List.map_map]
  · intro i hi
    have hrow : ((toF vs).drop (i * dimensions)).take dimensions =
        toF ((vs.drop (i * dimensions)).take dimensions) := by
      simp [toF, List.map_drop, List.map_take]
    rw [hrow, cosine_similarity_toF dimensions _ _ hq
      (row_length vs hvs (List.mem_range.mp hi))]

/-! ### The stable descending sort used by `find_top_k` -/

theorem pleR_trans (a b c : ℕ × ℝ) : pleR a b → pleR b c → pleR a c := by
  simp only [pleR, decide_eq_true_eq]
  exact fun h1 h2 => le_trans h2 h1

theorem pleR_total (a b : ℕ × ℝ) : pleR a b || pleR b a := by
  simp only [pleR, Bool.or_eq_true, decide_eq_true_eq]
  exact le_total b.2 a.2

/-- Two entries read off a list at positions `i < j` form a sublist. -/
theorem pair_sublist_of_get? {α : Type} {l : List α} {i j : ℕ} {x y : α}
    (hx : l.get? i = some x) (hy : l.get? j = some y) (hij : i < j) :
    [x, y].Sublist l := by
  have hx' : [x].Sublist (l.take (i + 1)) := by
    rw [List.singleton_sublist]
    exact List.get?_mem (by rw [List.get?_take (Nat.lt_succ_self i)]; exact hx)
  have hy' : [y].Sublist (l.drop (i + 1)) := by
    rw [List.singleton_sublist]
    have hy2 : (l.drop (i + 1)).get? (j - (i + 1)) = some y := by
      rw [List.get?_eq_getElem?, List.getElem?_drop, ← List.get?_eq_getElem?,
        Nat.add_sub_cancel' hij]
      exact hy
    exact List.get?_mem hy2
  have := List.Sublist.append hx' hy'
  rwa [List.take_append_drop] at this

/-- In a duplicate-free list, a pair cannot occur as a sublist in both
orders. -/
theorem pair_sublist_antisymm {α : Type} {x y : α} : ∀ {l : List α},
    l.Nodup → [x, y].Sublist l → [y, x].Sublist l → x = y := by
  intro l
  induction l with
  | nil => intro _ h1; cases h1
  | cons c t ih =>
    intro hnd h1 h2
    cases h1 with
    | cons _ h1' =>
      cases h2 with
      | cons _ h2' => exact ih hnd.of_cons h1' h2'
      | cons₂ _ h2' =>
        exact absurd (h1'.subset (by simp)) (List.nodup_cons.mp hnd).1
    | cons₂ _ h1' =>
      cases h2 with
      | cons _ h2' =>
        exact absurd (h2'.subset (by simp)) (List.nodup_cons.mp hnd).1
      | cons₂ _ h2' => rfl

theorem enum_nodup {α : Type} (l : List α) : l.enum.Nodup :=
  (List.nodup_enum_map_fst l).of_map Prod.fst

/-- Membership in `enum` pins the entry to its position. -/
theorem enum_get?_self {α : Type} {l : List α} {a : ℕ × α} (ha : a ∈ l.enum) :
    l.enum.get? a.1 = some a := by
  have h2 : l.get? a.1 = some a.2 := List.mem_enum_iff_get?.mp ha
  rw [List.get?_enum, h2]
  simp

/-- The sorted output of `find_top_k`'s ranking is both descending in score
and, on equal scores, ascending in original index: this is exactly stability
of the sort for the descending comparator. -/
theorem sortR_pairwise (s : List ℝ) :
    (s.enum.mergeSort pleR).Pairwise
      (fun a b => b.2 ≤ a.2 ∧ (a.2 = b.2 → a.1 < b.1)) := by
  have hnd : (s.enum.mergeSort pleR).Nodup :=
    (List.mergeSort_perm s.enum pleR).symm.nodup (enum_nodup s)
  have hsorted : (s.enum.mergeSort pleR).Pairwise (fun a b => b.2 ≤ a.2) := by
    have := List.sorted_mergeSort pleR_trans pleR_total s.enum
    exact this.imp (by simp only [pleR, decide_eq_true_eq]; exact fun h => h)
  have hstable : (s.enum.mergeSort pleR).Pairwise
      (fun a b => a.2 = b.2 → a.1 < b.1) := by
    rw [List.pairwise_iff_forall_sublist]
    intro a b hsub heq
    have hne : a ≠ b := by
      have := hsub.nodup hnd
      simp only [List.nodup_cons, List.mem_singleton] at this
      exact this.1
    by_contra hab
    have hne1 : b.1 ≠ a.1 := fun h => hne (Prod.ext (h.symm) heq)
    have hba : b.1 < a.1 := lt_of_le_of_ne (not_lt.mp hab) hne1
    have hamem : a ∈ s.enum := by
      have : a ∈ s.enum.mergeSort pleR := hsub.subset (by simp)
      rwa [List.mem_mergeSort] at this
    have hbmem : b ∈ s.enum := by
      have : b ∈ s.enum.mergeSort pleR := hsub.subset (by simp)
      rwa [List.mem_mergeSort] at this
    have hpair : [b, a].Sublist s.enum :=
      pair_sublist_of_get? (enum_get?_self hbmem) (enum_get?_self hamem) hba
    have hple : pleR b a := by
      simp only [pleR, decide_eq_true_eq, heq, le_refl]
    have : [b, a].Sublist (s.enum.mergeSort pleR) :=
      List.pair_sublist_mergeSort pleR_trans pleR_total hple hpair
    exact hne (pair_sublist_antisymm hnd hsub this)
  exact hsorted.and hstable

theorem sortR_fst_perm (s : List ℝ) :
    ((s.enum.mergeSort pleR).map Prod.fst).Perm (List.range s.length) := by
  have h1 : ((s.enum.mergeSort pleR).map Prod.fst).Perm (s.enum.map Prod.fst) :=
    (List.mergeSort_perm s.enum pleR).map Prod.fst
  have h2 : s.enum.map Prod.fst = List.range s.length := by
    rw [List.enum_eq_enumFrom, List.enumFrom_map_fst, List.range_eq_range']
  rwa [h2] at h1

/-- Forgetting the `some` wrappers of a NaN-free enumerated score list. -/
theorem enumFrom_toF_map (s : List ℝ) (n : ℕ) :
    (List.enumFrom n (toF s)).map (fun p => (p.1, p.2.getD 0)) =
      s.enumFrom n := by
  induction s generalizing n with
  | nil => rfl
  | cons x t ih => simp [toF, List.enumFrom, ih] at *; exact ih _

theorem mem_enum_toF_some {s : List ℝ} {p : ℕ × F} (hp : p ∈ (toF s).enum) :
    ∃ r : ℝ, p.2 = some r := by
  have h := List.mem_enum_iff_get?.mp hp
  rw [toF, List.get?_map] at h
  cases hs : s.get? p.1 with
  | none => rw [hs] at h; simp at h
  | some r => rw [hs] at h; exact ⟨r, by simpa using h.symm⟩

/-- On the enumeration of a NaN-free score list, the float comparator agrees
with its real shadow through the forgetful map. -/
theorem ple_eq_pleR_toF (s : List ℝ) :
    ∀ a ∈ (toF s).enum, ∀ b ∈ (toF s).enum,
      ple a b = pleR (a.1, a.2.getD 0) (b.1, b.2.getD 0) := by
  intro a ha b hb
  obtain ⟨x, hx⟩ := mem_enum_toF_some ha
  obtain ⟨y, hy⟩ := mem_enum_toF_some hb
  simp [ple, pleR, hx, hy]

/-- On NaN-free inputs of the declared shape, `find_top_k` succeeds and
returns the first `k` indices of the stable descending real sort of the
enumerated scores. -/
theorem find_top_k_toF (dimensions : ℕ) (q vs : List ℝ) (count k : ℕ)
    (hq : q.length = dimensions) (hvs : vs.length = count * dimensions) :
    find_top_k dimensions (toF q) (toF vs) count k =
      .ok (((((List.range count).map fun i =>
          cosineR q ((vs.drop (i * dimensions)).take dimensions)).enum.mergeSort
          pleR).take k).map Prod.fst) := by
  unfold find_top_k
  rw [batch_cosine_similarity_toF dimensions q vs count hq hvs]
  show (if _ then _ else _) = _
  rw [if_neg]
  · set scores := (List.range count).map fun i =>
      cosineR q ((vs.drop (i * dimensions)).take dimensions) with hscores
    have hmap : ((toF scores).enum.mergeSort ple).map
        (fun p : ℕ × F => (p.1, p.2.getD 0)) = scores.enum.mergeSort pleR := by
      rw [List.map_mergeSort (ple_eq_pleR_toF scores)]
      rw [List.enum_eq_enumFrom, enumFrom_toF_map, ← List.enum_eq_enumFrom]
    have hfst : (((toF scores).enum.mergeSort ple).take k).map Prod.fst =
        ((scores.enum.mergeSort pleR).take k).map Prod.fst := by
      rw [← hmap, ← List.map_take, List.map_map]
      rfl
    rw [hfst]
  · rintro ⟨-, p, hp, hnone⟩
    obtain ⟨r, hr⟩ := mem_enum_toF_some hp
    rw [hr] at hnone
    cases hnone

/-! ### The lane-parallel accumulation of `cosine_similarity_simd` -/

theorem take_split {α : Type} (l : List α) (m n : ℕ) :
    l.take (m + n) = l.take m ++ (l.drop m).take n :=
  calc l.take (m + n)
      = (l.take (m + n)).take m ++ (l.take (m + n)).drop m :=
        (List.take_append_drop m _).symm
    _ = l.take m ++ (l.drop m).take n := by
        rw [List.take_take, min_eq_left (Nat.le_add_right m n), List.take_drop]

/-- Accumulating a list four entries at a time (each lane folded from zero)
equals folding the first `4 * c` entries directly. -/
theorem chunk_foldl (l : List F) (c : ℕ) :
    (List.range c).foldl (fun acc i =>
      fadd acc (((l.drop (i * 4)).take 4).foldl fadd (some 0))) (some 0) =
      (l.take (c * 4)).foldl fadd (some 0) := by
  induction c with
  | zero => rfl
  | succ c ih =>
    rw [List.range_succ, List.foldl_append, ih, Nat.succ_mul, take_split,
      List.foldl_append]
    simp only [List.foldl_cons, List.foldl_nil]
    exact (foldl_fadd_eq _ _).symm

/-- Folding the tail of a list onto the fold of its head part folds the whole
list. -/
theorem split_foldl (l : List F) (n : ℕ) :
    (l.drop n).foldl fadd ((l.take n).foldl fadd (some 0)) =
      l.foldl fadd (some 0) := by
  rw [← List.foldl_append, List.take_append_drop]

/-- With the SIMD feature enabled and validation passed, the lane-parallel
accumulation computes exactly the same value as the scalar loop: in exact
real arithmetic the two differ only by the association of the additions. -/
theorem cosine_similarity_simd_eq_f32 (dimensions : ℕ) (v1 v2 : List F)
    (h1 : v1.length = dimensions) (h2 : v2.length = dimensions) :
    cosine_similarity_simd true dimensions v1 v2 =
      cosine_similarity_f32 v1 v2 := by
  have hlen : v1.length = v2.length := h1.trans h2.symm
  have htk : v2.take v1.length = v2 := by rw [hlen, List.take_length]
  have hdot : (List.zipWith fmul (v1.drop (v1.length / 4 * 4))
      (v2.drop (v1.length / 4 * 4))).foldl fadd
      ((List.range (v1.length / 4)).foldl (fun acc i =>
        fadd acc ((List.zipWith fmul ((v1.drop (i * 4)).take 4)
          ((v2.drop (i * 4)).take 4)).foldl fadd (some 0))) (some 0)) =
      (List.zipWith fmul v1 v2).foldl fadd (some 0) := by
    have hc : ∀ i, List.zipWith fmul ((v1.drop (i * 4)).take 4)
        ((v2.drop (i * 4)).take 4) =
        ((List.zipWith fmul v1 v2).drop (i * 4)).take 4 := fun i => by
      rw [List.drop_zipWith, List.take_zipWith]
    simp only [hc]
    rw [chunk_foldl, ← List.drop_zipWith, split_foldl]
  have hnorm : ∀ v : List F,
      ((v.drop (v1.length / 4 * 4)).map fun x => fmul x x).foldl fadd
      ((List.range (v1.length / 4)).foldl (fun acc i =>
        fadd acc ((List.zipWith fmul ((v.drop (i * 4)).take 4)
          ((v.drop (i * 4)).take 4)).foldl fadd (some 0))) (some 0)) =
      (v.map fun x => fmul x x).foldl fadd (some 0) := by
    intro v
    have hc : ∀ i, List.zipWith fmul ((v.drop (i * 4)).take 4)
        ((v.drop (i * 4)).take 4) =
        ((v.map fun x => fmul x x).drop (i * 4)).take 4 := fun i => by
      rw [List.zipWith_same, List.map_take, List.map_drop]
    simp only [hc]
    rw [chunk_foldl, List.map_drop, split_foldl]
  unfold cosine_similarity_simd cosine_similarity_f32
  rw [if_pos rfl]
  rw [if_neg (show ¬(v1.length ≠ v2.length ∨ v1.length ≠ dimensions) by
    push_neg
    exact ⟨hlen, h1⟩)]
  rw [if_neg (show ¬(v2.length < v1.length) by omega)]
  dsimp only
  rw [htk, hdot, hnorm v1, hnorm v2]

/-! ### Remaining helper lemmas -/

/-- `euclidean_distance` is symmetric on arbitrary float inputs (a mismatch
panics identically in both orders, and squared differences are symmetric). -/
theorem euclidean_distance_symm (dimensions : ℕ) (u w : List F) :
    euclidean_distance dimensions u w = euclidean_distance dimensions w u := by
  unfold euclidean_distance
  by_cases hl : u.length = w.length
  · have hcond : (u.length ≠ w.length ∨ u.length ≠ dimensions) ↔
        (w.length ≠ u.length ∨ w.length ≠ dimensions) := by
      rw [hl]
    by_cases hg : w.length ≠ u.length ∨ w.length ≠ dimensions
    · rw [if_pos (hcond.mpr hg), if_pos hg]
    · rw [if_neg (fun h => hg (hcond.mp h)), if_neg hg]
      rw [List.zipWith_comm_of_comm]
      intro x y
      cases x <;> cases y <;> simp [fsub, fmul] <;> ring_nf
  · rw [if_pos (Or.inl hl), if_pos (Or.inl fun h => hl h.symm)]

theorem zipWith_mul_add_sum (a a' b : List ℝ) (h : a.length = a'.length) :
    (List.zipWith (· * ·) (List.zipWith (· + ·) a a') b).sum =
      (List.zipWith (· * ·) a b).sum + (List.zipWith (· * ·) a' b).sum := by
  induction a generalizing a' b with
  | nil =>
    cases a' with
    | nil => simp
    | cons x' t' => simp at h
  | cons x t ih =>
    cases a' with
    | nil => simp at h
    | cons x' t' =>
      cases b with
      | nil => simp
      | cons y u =>
        simp only [List.zipWith_cons_cons, List.sum_cons,
          ih t' u (by simpa using h)]
        ring

/-- A call with validated shapes never produces a dimension panic. -/
theorem cosine_similarity_ok (dimensions : ℕ) (v1 v2 : List F)
    (h1 : v1.length = v2.length) (h2 : v1.length = dimensions) :
    ∃ v, cosine_similarity dimensions v1 v2 = .ok v := by
  unfold cosine_similarity
  rw [if_neg (show ¬(v1.length ≠ v2.length ∨ v1.length ≠ dimensions) by
    push_neg
    exact ⟨h1, h2⟩)]
  dsimp only
  by_cases hmag : fmul (fsqrt ((v1.map fun x => fmul x x).foldl fadd (some 0)))
      (fsqrt ((v2.map fun x => fmul x x).foldl fadd (some 0))) = some 0
  · exact ⟨some 0, by rw [if_pos hmag]⟩
  · exact ⟨_, by rw [if_neg hmag]⟩

theorem mapM'_ok_exists {α β ε : Type} (l : List α) (f : α → Except ε β)
    (h : ∀ a ∈ l, ∃ b, f a = .ok b) : ∃ out, l.mapM' f = .ok out := by
  induction l with
  | nil => exact ⟨[], rfl⟩
  | cons a t ih =>
    obtain ⟨b, hb⟩ := h a (by simp)
    obtain ⟨tl, htl⟩ := ih fun x hx => h x (by simp [hx])
    exact ⟨b :: tl, by
      simp only [List.mapM'_cons, hb, htl, bind, Bind.bind, Except.bind]
      rfl⟩

theorem mapM_ok_exists {α β ε : Type} (l : List α) (f : α → Except ε β)
    (h : ∀ a ∈ l, ∃ b, f a = .ok b) : ∃ out, l.mapM f = .ok out := by
  obtain ⟨out, hout⟩ := mapM'_ok_exists l f h
  exact ⟨out, by rw [← List.mapM'_eq_mapM, hout]⟩

theorem sumSq_ne_zero {v : List ℝ} (hnz : normR v ≠ 0) : sumSq v ≠ 0 := by
  intro h
  exact hnz (by rw [normR, h, Real.sqrt_zero])

/-- Dividing every component of a nonzero vector by its norm produces a unit
vector (exactly, in real arithmetic). -/
theorem normR_map_div (v : List ℝ) (hnz : normR v ≠ 0) :
    normR (v.map fun x => x / normR v) = 1 := by
  set m := normR v with hm
  have hmm : m * m = sumSq v := Real.mul_self_sqrt (sumSq_nonneg v)
  have hsum : sumSq (v.map fun x => x / m) = 1 := by
    unfold sumSq
    rw [List.map_map]
    have hfun : ((fun x => x * x) ∘ fun x => x / m) =
        fun x => (x * x) * (m * m)⁻¹ := by
      funext x
      rw [Function.comp_apply, div_mul_div_comm, div_eq_mul_inv]
    rw [hfun, List.sum_map_mul_right, hmm]
    exact mul_inv_cancel₀ (sumSq_ne_zero hnz)
  rw [normR, hsum, Real.sqrt_one]

/-! ### Claim theorems -/

/-- Claim C6: zero-norm operands are a defined fallback, not an error: if
either operand of `cosine_similarity` has norm exactly zero the score is `0`
(no division by zero), and `normalize_vector` of a zero-norm vector leaves
the vector unchanged. -/
theorem zero_norm_fallback (dimensions : ℕ) (a b v : List ℝ)
    (ha : a.length = dimensions) (hb : b.length = dimensions)
    (hv : v.length = dimensions) :
    (normR a = 0 ∨ normR b = 0 →
      cosine_similarity dimensions (toF a) (toF b) = .ok (some 0)) ∧
    (normR v = 0 → normalize_vector dimensions (toF v) = .ok (toF v)) := by
  constructor
  · intro hz
    rw [cosine_similarity_toF dimensions a b ha hb]
    unfold cosineR
    rw [if_pos]
    rcases hz with hz | hz
    · rw [hz, zero_mul]
    · rw [hz, mul_zero]
  · intro hz
    unfold normalize_vector
    rw [if_neg (by simp [length_toF, hv]), norm_foldl_toF, fsqrt_sumSq,
      show Real.sqrt (sumSq v) = normR v from rfl, hz]
    simp

/-- Witness for C6 at `a = [0,0]`, `b = [1,2]`, `v = [0,0]`, `D = 2`. -/
theorem zero_norm_fallback_witness :
    (([(0:ℝ), 0]).length = 2 ∧ ([(1:ℝ), 2]).length = 2 ∧
      normR [(0:ℝ), 0] = 0) ∧
    cosine_similarity 2 (toF [0, 0]) (toF [1, 2]) = .ok (some 0) ∧
    normalize_vector 2 (toF [0, 0]) = .ok (toF [0, 0]) := by
  have hz : normR [(0:ℝ), 0] = 0 := by
    rw [normR, show sumSq [(0:ℝ), 0] = 0 by norm_num [sumSq], Real.sqrt_zero]
  have h := zero_norm_fallback 2 [0, 0] [1, 2] [0, 0] rfl rfl rfl
  exact ⟨⟨rfl, rfl, hz⟩, h.1 (Or.inl hz), h.2 hz⟩

/-- Claim C7: on a nonzero vector, `normalize_vector` divides every component
in place by the norm, and the result has magnitude one (hence within `1e-9`
of one). -/
theorem normalizeVector_unit (dimensions : ℕ) (v : List ℝ)
    (hv : v.length = dimensions) (hnz : normR v ≠ 0) :
    normalize_vector dimensions (toF v) =
      .ok (toF (v.map fun x => x / normR v)) ∧
    normR (v.map fun x => x / normR v) = 1 ∧
    |normR (v.map fun x => x / normR v) - 1| ≤ 1e-9 := by
  have hpos : 0 < normR v := lt_of_le_of_ne (Real.sqrt_nonneg _) (Ne.symm hnz)
  refine ⟨?_, normR_map_div v hnz, ?_⟩
  · unfold normalize_vector
    rw [if_neg (by simp [length_toF, hv]), norm_foldl_toF, fsqrt_sumSq,
      show Real.sqrt (sumSq v) = normR v from rfl]
    dsimp only
    rw [if_pos hpos]
    simp [toF, List.map_map, fdiv, hnz]
  · rw [normR_map_div v hnz]
    norm_num

/-- Witness for C7 at `v = [3,4,0]`, `D = 3`, including the concrete output
`[0.6, 0.8, 0]`. -/
theorem normalizeVector_unit_witness :
    (([(3:ℝ), 4, 0]).length = 3 ∧ normR [(3:ℝ), 4, 0] ≠ 0) ∧
    normalize_vector 3 (toF [3, 4, 0]) = .ok (toF [0.6, 0.8, 0]) := by
  have h5 : normR [(3:ℝ), 4, 0] = 5 := by
    rw [normR, show sumSq [(3:ℝ), 4, 0] = 25 by norm_num [sumSq],
      show (25:ℝ) = 5 ^ 2 by norm_num]
    exact Real.sqrt_sq (by norm_num)
  have hnz : normR [(3:ℝ), 4, 0] ≠ 0 := by rw [h5]; norm_num
  have h := normalizeVector_unit 3 [3, 4, 0] rfl hnz
  refine ⟨⟨rfl, hnz⟩, ?_⟩
  rw [h.1, h5]
  norm_num [toF]

/-- Claim C8: `euclidean_distance` equals the square root of the summed
squared differences, is nonnegative, symmetric, and zero on identical
vectors. -/
theorem euclideanDistance_props (dimensions : ℕ) (a b v : List ℝ)
    (ha : a.length = dimensions) (hb : b.length = dimensions)
    (hv : v.length = dimensions) :
    ∃ d, euclidean_distance dimensions (toF a) (toF b) = .ok (some d) ∧
      d = Real.sqrt ((List.zipWith (fun x y => (x - y) * (x - y)) a b).sum) ∧
      0 ≤ d ∧
      euclidean_distance dimensions (toF b) (toF a) = .ok (some d) ∧
      euclidean_distance dimensions (toF v) (toF v) = .ok (some 0) ∧
      ∀ u w : List F, euclidean_distance dimensions u w =
        euclidean_distance dimensions w u := by
  refine ⟨_, euclidean_distance_toF dimensions a b ha hb, rfl,
    Real.sqrt_nonneg _, ?_, ?_, fun u w => euclidean_distance_symm dimensions u w⟩
  · rw [euclidean_distance_symm dimensions (toF b) (toF a)]
    exact euclidean_distance_toF dimensions a b ha hb
  · rw [euclidean_distance_toF dimensions v v hv hv]
    have hzero : List.zipWith (fun x y => (x - y) * (x - y)) v v =
        v.map fun _ => (0:ℝ) := by
      rw [List.zipWith_same]
      exact List.map_congr_left fun x _ => by ring
    rw [hzero, List.sum_eq_zero (fun x hx => by
      obtain ⟨y, -, rfl⟩ := List.mem_map.mp hx
      rfl), Real.sqrt_zero]

/-- Witness for C8 at `a = [1,0,0]`, `b = [0,1,0]`, `v = [2,3,4]`, `D = 3`. -/
theorem euclideanDistance_props_witness :
    (([(1:ℝ), 0, 0]).length = 3 ∧ ([(0:ℝ), 1, 0]).length = 3 ∧
      ([(2:ℝ), 3, 4]).length = 3) ∧
    ∃ d, euclidean_distance 3 (toF [1, 0, 0]) (toF [0, 1, 0]) = .ok (some d) ∧
      d = Real.sqrt ((List.zipWith (fun x y => (x - y) * (x - y))
        [(1:ℝ), 0, 0] [(0:ℝ), 1, 0]).sum) ∧
      0 ≤ d ∧
      euclidean_distance 3 (toF [0, 1, 0]) (toF [1, 0, 0]) = .ok (some d) ∧
      euclidean_distance 3 (toF [2, 3, 4]) (toF [2, 3, 4]) = .ok (some 0) ∧
      ∀ u w : List F, euclidean_distance 3 u w = euclidean_distance 3 w u :=
  ⟨⟨rfl, rfl, rfl⟩, euclideanDistance_props 3 [1, 0, 0] [0, 1, 0] [2, 3, 4]
    rfl rfl rfl⟩

/-- Claim C9: `dot_product` computes `Σ aᵢ·bᵢ` and is additive (hence, with
scalar homogeneity of the formula, bilinear) in its first argument. -/
theorem dotProduct_bilinear (dimensions : ℕ) (a a' b : List ℝ)
    (ha : a.length = dimensions) (ha' : a'.length = dimensions)
    (hb : b.length = dimensions) :
    ∃ x y, dot_product dimensions (toF a) (toF b) = .ok (some x) ∧
      dot_product dimensions (toF a') (toF b) = .ok (some y) ∧
      x = (List.zipWith (· * ·) a b).sum ∧
      dot_product dimensions (toF (List.zipWith (· + ·) a a')) (toF b) =
        .ok (some (x + y)) := by
  refine ⟨_, _, dot_product_toF dimensions a b ha hb,
    dot_product_toF dimensions a' b ha' hb, rfl, ?_⟩
  rw [dot_product_toF dimensions _ b
    (by rw [List.length_zipWith, ha, ha']; exact min_self _) hb,
    zipWith_mul_add_sum a a' b (ha.trans ha'.symm)]

/-- Witness for C9 at `a = [1,2]`, `a' = [3,4]`, `b = [5,6]`, `D = 2`. -/
theorem dotProduct_bilinear_witness :
    (([(1:ℝ), 2]).length = 2 ∧ ([(3:ℝ), 4]).length = 2 ∧
      ([(5:ℝ), 6]).length = 2) ∧
    ∃ x y, dot_product 2 (toF [1, 2]) (toF [5, 6]) = .ok (some x) ∧
      dot_product 2 (toF [3, 4]) (toF [5, 6]) = .ok (some y) ∧
      x = (List.zipWith (· * ·) [(1:ℝ), 2] [(5:ℝ), 6]).sum ∧
      dot_product 2 (toF (List.zipWith (· + ·) [(1:ℝ), 2] [(3:ℝ), 4]))
        (toF [5, 6]) = .ok (some (x + y)) :=
  ⟨⟨rfl, rfl, rfl⟩, dotProduct_bilinear 2 [1, 2] [3, 4] [5, 6] rfl rfl rfl⟩

/-- Claim C2: `batch_cosine_similarity` succeeds on validated shapes and its
`i`-th entry is exactly the single-pair `cosine_similarity` of the query with
row `i` of the flattened set, for every `i < n`. -/
theorem batchCosine_pointwise (dimensions : ℕ) (query vectors : List F)
    (n : ℕ) (hq : query.length = dimensions)
    (hv : vectors.length = n * dimensions) :
    ∃ sl, batch_cosine_similarity dimensions query vectors n = .ok sl ∧
      sl.length = n ∧
      ∀ i, i < n → ∃ score, sl.get? i = some score ∧
        cosine_similarity dimensions query
          ((vectors.drop (i * dimensions)).take dimensions) = .ok score := by
  unfold batch_cosine_similarity
  rw [if_neg (by simp [hq]), if_neg (by simp [hv])]
  obtain ⟨sl, hsl⟩ := mapM_ok_exists (List.range n)
    (fun i => cosine_similarity dimensions query
      ((vectors.drop (i * dimensions)).take dimensions))
    (fun i hi => cosine_similarity_ok dimensions query
      ((vectors.drop (i * dimensions)).take dimensions)
      (by rw [hq, row_length vectors hv (List.mem_range.mp hi)]) hq)
  have hf := mapM_ok_forall₂ _ _ _ hsl
  have hlen : sl.length = n := by
    have := hf.length_eq
    rwa [List.length_range, eq_comm] at this
  refine ⟨sl, hsl, hlen, ?_⟩
  intro i hi
  rw [List.forall₂_iff_get] at hf
  obtain ⟨hle, hget⟩ := hf
  have hi1 : i < (List.range n).length := by rw [List.length_range]; exact hi
  have hi2 : i < sl.length := by rw [hlen]; exact hi
  have hgi := hget i hi1 hi2
  have hr : (List.range n).get ⟨i, hi1⟩ = i := by
    rw [List.get_eq_getElem, List.getElem_range]
  rw [hr] at hgi
  exact ⟨sl.get ⟨i, hi2⟩, by rw [List.get?_eq_get hi2], hgi⟩

/-- Witness for C2 at `D = 1`, `query = [1]`, `vectors = [1, 0]`, `n = 2`. -/
theorem batchCosine_pointwise_witness :
    (([some (1:ℝ)] : List F).length = 1 ∧
      ([some (1:ℝ), some 0] : List F).length = 2 * 1) ∧
    ∃ sl, batch_cosine_similarity 1 [some 1] [some 1, some 0] 2 = .ok sl ∧
      sl.length = 2 ∧
      ∀ i, i < 2 → ∃ score, sl.get? i = some score ∧
        cosine_similarity 1 [some 1]
          ((([some (1:ℝ), some 0] : List F).drop (i * 1)).take 1) =
            .ok score :=
  ⟨⟨rfl, rfl⟩, batchCosine_pointwise 1 [some 1] [some 1, some 0] 2 rfl rfl⟩

/-- Claim C4: with the SIMD feature disabled, `cosine_similarity_simd` is
identical to the scalar single-precision path on every input; with it
enabled, the two paths agree within `1e-5` (in fact exactly, since in exact
arithmetic the lane-parallel accumulation only reassociates the sums). -/
theorem simd_agrees_scalar (dimensions : ℕ) (a b : List ℝ)
    (ha : a.length = dimensions) (hb : b.length = dimensions) :
    (∀ u w : List F, cosine_similarity_simd false dimensions u w =
      cosine_similarity_f32 u w) ∧
    ∃ x y, cosine_similarity_simd true dimensions (toF a) (toF b) =
        .ok (some x) ∧
      cosine_similarity_f32 (toF a) (toF b) = .ok (some y) ∧
      x = y ∧ |x - y| ≤ 1e-5 := by
  constructor
  · intro u w
    rfl
  · refine ⟨cosineR a b, cosineR a b, ?_, ?_, rfl, ?_⟩
    · rw [cosine_similarity_simd_eq_f32 dimensions (toF a) (toF b)
        (by rw [length_toF, ha]) (by rw [length_toF, hb])]
      exact cosine_similarity_f32_toF a b (ha.trans hb.symm)
    · exact cosine_similarity_f32_toF a b (ha.trans hb.symm)
    · rw [sub_self, abs_zero]
      norm_num

/-- Witness for C4 at `D = 5` (one full lane of four plus a remainder). -/
theorem simd_agrees_scalar_witness :
    (([(3:ℝ), 1, 4, 1, 5]).length = 5 ∧ ([(9:ℝ), 2, 6, 5, 3]).length = 5) ∧
    (∀ u w : List F, cosine_similarity_simd false 5 u w =
      cosine_similarity_f32 u w) ∧
    ∃ x y, cosine_similarity_simd true 5 (toF [3, 1, 4, 1, 5])
        (toF [9, 2, 6, 5, 3]) = .ok (some x) ∧
      cosine_similarity_f32 (toF [3, 1, 4, 1, 5]) (toF [9, 2, 6, 5, 3]) =
        .ok (some y) ∧
      x = y ∧ |x - y| ≤ 1e-5 :=
  ⟨⟨rfl, rfl⟩, simd_agrees_scalar 5 [3, 1, 4, 1, 5] [9, 2, 6, 5, 3] rfl rfl⟩

/-- Claim C3 (amended): `cosine_similarity`, `euclidean_distance`,
`dot_product`, `normalize_vector`, `batch_cosine_similarity`, and
`cosine_similarity_simd` with the SIMD feature enabled all fail with a
DimensionMismatch panic on any operand whose length disagrees with the
declared dimensionality (or flattened set length `≠ count * dimensions`),
aborting only the current call with no partial output.  The scalar fallback
of `cosine_similarity_simd` (SIMD feature disabled) is excluded: it performs
no validation (see `simd_fallback_skips_validation`). -/
theorem dimension_mismatch_errors (dimensions count : ℕ) (v1 v2 : List F) :
    ((v1.length ≠ dimensions ∨ v2.length ≠ dimensions) →
      cosine_similarity dimensions v1 v2 = .error .dimensionMismatch ∧
      euclidean_distance dimensions v1 v2 = .error .dimensionMismatch ∧
      dot_product dimensions v1 v2 = .error .dimensionMismatch ∧
      cosine_similarity_simd true dimensions v1 v2 =
        .error .dimensionMismatch) ∧
    (v1.length ≠ dimensions →
      normalize_vector dimensions v1 = .error .dimensionMismatch) ∧
    ((v1.length ≠ dimensions ∨ v2.length ≠ count * dimensions) →
      batch_cosine_similarity dimensions v1 v2 count =
        .error .dimensionMismatch) := by
  refine ⟨?_, ?_, ?_⟩
  · intro h
    have hcond : v1.length ≠ v2.length ∨ v1.length ≠ dimensions := by
      rcases h with h | h
      · exact Or.inr h
      · by_cases he : v1.length = dimensions
        · exact Or.inl fun hh => h (hh ▸ he)
        · exact Or.inr he
    refine ⟨?_, ?_, ?_, ?_⟩
    · unfold cosine_similarity
      rw [if_pos hcond]
    · unfold euclidean_distance
      rw [if_pos hcond]
    · unfold dot_product
      rw [if_pos hcond]
    · unfold cosine_similarity_simd
      rw [if_pos rfl, if_pos hcond]
  · intro h
    unfold normalize_vector
    rw [if_pos h]
  · intro h
    unfold batch_cosine_similarity
    rcases h with h | h
    · rw [if_pos h]
    · by_cases hq : v1.length ≠ dimensions
      · rw [if_pos hq]
      · rw [if_neg hq, if_pos h]

/-- Witness for C3 (amended), at length-1 operands against `D = 3`. -/
theorem dimension_mismatch_errors_witness :
    ([some (1:ℝ)] : List F).length ≠ 3 ∧
    cosine_similarity 3 [some 1] [some 1] = .error .dimensionMismatch ∧
    euclidean_distance 3 [some 1] [some 1] = .error .dimensionMismatch ∧
    dot_product 3 [some 1] [some 1] = .error .dimensionMismatch ∧
    cosine_similarity_simd true 3 [some 1] [some 1] =
      .error .dimensionMismatch ∧
    normalize_vector 3 [some 1] = .error .dimensionMismatch ∧
    batch_cosine_similarity 3 [some 1] [some 1] 5 =
      .error .dimensionMismatch := by
  have hne : ([some (1:ℝ)] : List F).length ≠ 3 := by decide
  have h := dimension_mismatch_errors 3 5 [some 1] [some 1]
  obtain ⟨c1, c2, c3, c4⟩ := h.1 (Or.inl hne)
  exact ⟨hne, c1, c2, c3, c4, h.2.1 hne, h.2.2 (Or.inl hne)⟩

/-- Counterexample to C3 as stated: with the SIMD feature disabled,
`cosine_similarity_simd` delegates to the unchecked scalar helper, so a call
whose operand lengths (here `1`) disagree with the declared dimensionality
(here `3`) returns a score instead of failing with DimensionMismatch. -/
theorem simd_fallback_skips_validation :
    ([some (1:ℝ)] : List F).length ≠ 3 ∧
    cosine_similarity_simd false 3 [some 1] [some 1] = .ok (some 1) ∧
    cosine_similarity_simd false 3 [some 1] [some 1] ≠
      .error .dimensionMismatch := by
  have hval : cosine_similarity_simd false 3 [some 1] [some 1] =
      .ok (some 1) := by
    show cosine_similarity_f32 [some 1] [some 1] = .ok (some 1)
    unfold cosine_similarity_f32
    rw [if_neg (by decide)]
    dsimp only
    norm_num [fmul, fadd, fsqrt, fdiv, Real.sqrt_one]
  exact ⟨by decide, hval, by rw [hval]; exact fun hc => Except.noConfusion hc⟩

/-- Whenever the batch step succeeds, `find_top_k` reduces to the guarded
ranking of the returned scores. -/
theorem find_top_k_ok_form (dimensions : ℕ) (query vectors : List F)
    (count k : ℕ) (sl : List F)
    (hb : batch_cosine_similarity dimensions query vectors count = .ok sl) :
    find_top_k dimensions query vectors count k =
      if 2 ≤ sl.enum.length ∧ ∃ p ∈ sl.enum, p.2 = none then
        .error .unwrapFailed
      else
        .ok (((sl.enum.mergeSort ple).take k).map Prod.fst) := by
  unfold find_top_k
  rw [hb]
  rfl

/-- Claim C5: a NaN similarity score is fatal during ranking: on a
structurally valid input whose query contains NaN, every row score is NaN,
and the ranking comparator's `unwrap` panics instead of returning a result. -/
theorem findTopK_nan_fatal :
    find_top_k 1 [none] [some 1, some 2] 2 2 = .error .unwrapFailed := by
  have hrow : ∀ w : F, cosine_similarity 1 [none] [w] = .ok none := by
    intro w
    unfold cosine_similarity
    rw [if_neg (by simp)]
    cases w <;> simp [fmul, fadd, fsqrt, fdiv]
  have hb : batch_cosine_similarity 1 [none] [some 1, some 2] 2 =
      .ok [none, none] := by
    unfold batch_cosine_similarity
    rw [if_neg (by decide), if_neg (by decide)]
    have := mapM_ok_of_forall (List.range 2)
      (fun i => cosine_similarity 1 [none]
        ((([some (1:ℝ), some 2] : List F).drop (i * 1)).take 1))
      (fun _ => (none : F)) ?_
    · rw [this]
      rfl
    · intro i hi
      rw [show List.range 2 = [0, 1] from rfl] at hi
      rcases List.mem_cons.mp hi with h0 | h1
      · subst h0
        exact hrow (some 1)
      · rw [List.mem_singleton.mp h1]
        exact hrow (some 2)
  rw [find_top_k_ok_form 1 [none] [some 1, some 2] 2 2 [none, none] hb,
    if_pos ⟨by simp, ⟨(0, none), by simp [List.enum, List.enumFrom], rfl⟩⟩]

/-- Claim C10: whenever `find_top_k` returns normally, every returned index
is a valid row index (`< count`) and no index is repeated. -/
theorem findTopK_indices_valid (dimensions : ℕ) (query vectors : List F)
    (count k : ℕ) (r : List ℕ)
    (h : find_top_k dimensions query vectors count k = .ok r) :
    (∀ i ∈ r, i < count) ∧ r.Nodup := by
  cases hb : batch_cosine_similarity dimensions query vectors count with
  | error e =>
    unfold find_top_k at h
    rw [hb] at h
    exact Except.noConfusion h
  | ok sl =>
    rw [find_top_k_ok_form dimensions query vectors count k sl hb] at h
    by_cases hcond : 2 ≤ sl.enum.length ∧ ∃ p ∈ sl.enum, p.2 = none
    · rw [if_pos hcond] at h
      exact Except.noConfusion h
    · rw [if_neg hcond] at h
      injection h with h
      subst h
      have hsl : sl.length = count := by
        unfold batch_cosine_similarity at hb
        by_cases h1 : query.length ≠ dimensions
        · rw [if_pos h1] at hb
          exact Except.noConfusion hb
        · rw [if_neg h1] at hb
          by_cases h2 : vectors.length ≠ count * dimensions
          · rw [if_pos h2] at hb
            exact Except.noConfusion hb
          · rw [if_neg h2] at hb
            have := (mapM_ok_forall₂ _ _ _ hb).length_eq
            rwa [List.length_range, eq_comm] at this
      have hfst : sl.enum.map Prod.fst = List.range count := by
        rw [List.enum_eq_enumFrom, List.enumFrom_map_fst,
          ← List.range_eq_range', hsl]
      have hperm : ((sl.enum.mergeSort ple).map Prod.fst).Perm
          (List.range count) := by
        have h1 : ((sl.enum.mergeSort ple).map Prod.fst).Perm
            (sl.enum.map Prod.fst) :=
          (List.mergeSort_perm sl.enum ple).map Prod.fst
        rwa [hfst] at h1
      constructor
      · intro i hi
        have hmem : i ∈ (sl.enum.mergeSort ple).map Prod.fst := by
          obtain ⟨p, hp, rfl⟩ := List.mem_map.mp hi
          exact List.mem_map_of_mem _ (List.mem_of_mem_take hp)
        exact List.mem_range.mp (hperm.mem_iff.mp hmem)
      · have hnd : ((sl.enum.mergeSort ple).map Prod.fst).Nodup :=
          hperm.symm.nodup (List.nodup_range count)
        exact ((List.take_sublist k _).map Prod.fst).nodup hnd

/-- Witness for C10 at an empty candidate set (`count = 0`). -/
theorem findTopK_indices_valid_witness :
    find_top_k 1 [some 1] [] 0 3 = .ok [] ∧
    (∀ i ∈ ([] : List ℕ), i < 0) ∧ ([] : List ℕ).Nodup := by
  have hbe : batch_cosine_similarity 1 [some 1] [] 0 = .ok [] := by
    unfold batch_cosine_similarity
    rw [if_neg (by decide), if_neg (by decide)]
    rfl
  have hEval : find_top_k 1 [some 1] [] 0 3 = .ok [] := by
    rw [find_top_k_ok_form 1 [some 1] [] 0 3 [] hbe, if_neg (by simp)]
    simp
  exact ⟨hEval, findTopK_indices_valid 1 [some 1] [] 0 3 [] hEval⟩

/-- Claim C1: on NaN-free inputs of the declared shape, `find_top_k`
succeeds and returns row indices ordered by cosine score descending, with
equal scores in ascending-index order (the sort is stable), of length
`min k count`; when `k ≥ count` the result is a permutation of all `count`
indices (and when `k = 0` it is empty, since `min 0 count = 0`). -/
theorem findTopK_sorted_stable (dimensions : ℕ) (q vs : List ℝ)
    (count k : ℕ) (hq : q.length = dimensions)
    (hvs : vs.length = count * dimensions) :
    ∃ r, find_top_k dimensions (toF q) (toF vs) count k = .ok r ∧
      r.length = min k count ∧
      r.Pairwise (fun i j =>
        cosineR q ((vs.drop (j * dimensions)).take dimensions) ≤
          cosineR q ((vs.drop (i * dimensions)).take dimensions) ∧
        (cosineR q ((vs.drop (i * dimensions)).take dimensions) =
          cosineR q ((vs.drop (j * dimensions)).take dimensions) → i < j)) ∧
      (count ≤ k → r.Perm (List.range count)) := by
  refine ⟨_, find_top_k_toF dimensions q vs count k hq hvs, ?_, ?_, ?_⟩
  · rw [List.length_map, List.length_take, List.length_mergeSort,
      List.enum_length, List.length_map, List.length_range]
  · have hmem : ∀ p : ℕ × ℝ, p ∈ ((((List.range count).map fun i =>
        cosineR q ((vs.drop (i * dimensions)).take dimensions)).enum.mergeSort
          pleR).take k) →
        p.2 = cosineR q ((vs.drop (p.1 * dimensions)).take dimensions) := by
      intro p hp
      have hp1 : p ∈ ((List.range count).map fun i =>
          cosineR q ((vs.drop (i * dimensions)).take dimensions)).enum := by
        have hpm : p ∈ ((List.range count).map fun i =>
            cosineR q ((vs.drop (i * dimensions)).take dimensions)).enum.mergeSort
              pleR := List.mem_of_mem_take hp
        exact List.mem_mergeSort.mp hpm
      have hget := List.mem_enum_iff_get?.mp hp1
      rw [List.get?_map] at hget
      cases hr : (List.range count).get? p.1 with
      | none =>
        rw [hr] at hget
        exact absurd hget (by simp)
      | some j =>
        rw [hr] at hget
        obtain ⟨hlt, hj⟩ := List.get?_eq_some.mp hr
        rw [List.get_eq_getElem, List.getElem_range] at hj
        rw [Option.map_some'] at hget
        injection hget with hget
        rw [← hget, ← hj]
    have hpw := (sortR_pairwise ((List.range count).map fun i =>
      cosineR q ((vs.drop (i * dimensions)).take dimensions))).sublist
      (List.take_sublist k _)
    rw [List.pairwise_map]
    refine List.Pairwise.imp_of_mem ?_ hpw
    intro a b hma hmb hab
    rw [hmem a hma, hmem b hmb] at hab
    exact hab
  · intro hk
    have hlen2 : ((((List.range count).map fun i =>
        cosineR q ((vs.drop (i * dimensions)).take dimensions)).enum.mergeSort
          pleR)).length = count := by
      rw [List.length_mergeSort, List.enum_length, List.length_map,
        List.length_range]
    rw [List.take_of_length_le (le_of_eq_of_le hlen2 hk)]
    have hp := sortR_fst_perm ((List.range count).map fun i =>
      cosineR q ((vs.drop (i * dimensions)).take dimensions))
    rwa [List.length_map, List.length_range] at hp

/-- Witness for C1 at the spec's scenario: `D = 2`, `query = [1,0]`,
`set = [[1,0],[0,1],[-1,0]]`, `k = 2`. -/
theorem findTopK_sorted_stable_witness :
    (([(1:ℝ), 0]).length = 2 ∧ ([(1:ℝ), 0, 0, 1, -1, 0]).length = 3 * 2) ∧
    ∃ r, find_top_k 2 (toF [1, 0]) (toF [1, 0, 0, 1, -1, 0]) 3 2 = .ok r ∧
      r.length = min 2 3 ∧
      r.Pairwise (fun i j =>
        cosineR [1, 0] ((([(1:ℝ), 0, 0, 1, -1, 0]).drop (j * 2)).take 2) ≤
          cosineR [1, 0] ((([(1:ℝ), 0, 0, 1, -1, 0]).drop (i * 2)).take 2) ∧
        (cosineR [1, 0] ((([(1:ℝ), 0, 0, 1, -1, 0]).drop (i * 2)).take 2) =
          cosineR [1, 0] ((([(1:ℝ), 0, 0, 1, -1, 0]).drop (j * 2)).take 2) →
            i < j)) ∧
      (3 ≤ 2 → r.Perm (List.range 3)) :=
  ⟨⟨rfl, rfl⟩, findTopK_sorted_stable 2 [1, 0] [1, 0, 0, 1, -1, 0] 3 2 rfl rfl⟩

end VectorSearchModel
